import Mathlib

/-!
Verification of the behaviour of the genindex tool of the
eliben/browser-tools repository, a single Python file
(_tools/genindex/genindex.py).  The tool extracts the bulleted
list under the heading "## List of tools" from a README document,
parses each bullet into a (title, url, description) record, and
renders the records as a static HTML page.

Shallow embedding conventions:
* A Python string is modelled as a `List Char`.  String literals are
  injected with `chars`.
* `str.strip`, `str.lstrip` and `str.lower` are modelled for the
  ASCII range (the whitespace set of CPython for ASCII text is
  space, tab, newline, carriage return, vertical tab, form feed).
* The one regular expression of the source,
  `\* \[([^\]]+)\]\(([^)]+)\)\s*-\s*(.+)` applied with `re.match`,
  is embedded as the function `pattern_match`.  Python regex
  semantics (leftmost match, greedy quantifiers with backtracking,
  `.` excluding the newline character) are reproduced; the comments
  at each helper justify the determinisation of the backtracking.
* `raise RuntimeError(msg)` is modelled with `Except PyError`.
* The driver `main` is modelled as a function of the README content
  and an abstract file-system state holding the output file.
-/

/-- The character list of a Lean string literal (models a Python str). -/
def chars (s : String) : List Char := s.data

/-- ASCII whitespace as stripped by CPython str.strip / str.lstrip. -/
def pyIsSpace (c : Char) : Bool :=
  c = ' ' || c = '\t' || c = '\n' || c = '\r' || c = '\x0b' || c = '\x0c'

/-- Python str.lstrip (ASCII whitespace). -/
def pyLstrip (s : List Char) : List Char := s.dropWhile pyIsSpace

/-- Python str.rstrip (ASCII whitespace). -/
def pyRstrip (s : List Char) : List Char := (s.reverse.dropWhile pyIsSpace).reverse

/-- Python str.strip (ASCII whitespace). -/
def pyStrip (s : List Char) : List Char := pyRstrip (pyLstrip s)

/-- Python str.lower, restricted to the ASCII range. -/
def pyLower (s : List Char) : List Char := s.map Char.toLower

/-- A raised Python exception; the source only raises RuntimeError(msg). -/
inductive PyError where
  | runtimeError (msg : List Char)
deriving DecidableEq

/-- A ToolEntry: the (title, url, description) tuple produced by
match.groups() in parse_list_items. -/
abbrev ToolEntry := List Char × List Char × List Char

/-! ## Section Extractor (genindex.py, extract_section) -/

/-- The test of the first loop of extract_section:
line.strip().lower() == "## list of tools". -/
def isMarkerLine (l : List Char) : Bool :=
  pyLower (pyStrip l) == chars "## list of tools"

/-- line.startswith("#"). -/
def startsHash (l : List Char) : Bool :=
  match l with
  | '#' :: _ => true
  | _ => false

/-- The message of the RuntimeError raised when the heading is missing. -/
def headingMsg : List Char :=
  chars "Could not find '## List of tools' heading in README.md"

/-- The first loop of extract_section: enumerate(lines), remember idx+1
for the first marker line and break. -/
def findHeading : List (List Char) → Nat → Option Nat
  | [], _ => none
  | l :: rest, idx =>
    if isMarkerLine l then some (idx + 1) else findHeading rest (idx + 1)

/-- The second loop of extract_section: append lines of lines[start:]
until a line starting with "#" (break). -/
def collectSection : List (List Char) → List (List Char)
  | [] => []
  | l :: rest => if startsHash l then [] else l :: collectSection rest

/-- extract_section from genindex.py. -/
def extract_section (docLines : List (List Char)) : Except PyError (List (List Char)) :=
  match findHeading docLines 0 with
  | none => .error (.runtimeError headingMsg)
  | some start => .ok (collectSection (docLines.drop start))

/-! ## List Parser (genindex.py, parse_list_items)

The compiled pattern is r"\* \[([^\]]+)\]\(([^)]+)\)\s*-\s*(.+)" used
with pattern.match (anchored at the start of the string only). -/

/-- line.lstrip().startswith("* "). -/
def isBulletLine (l : List Char) : Bool :=
  (chars "* ").isPrefixOf (pyLstrip l)

/-- The portion of the string matched by `.+` (greedy, `.` excludes
the newline character, so the match runs to the first newline or to
the end of the string). -/
def takeNotNl (s : List Char) : List Char := s.takeWhile (fun c => c != '\n')

/-- `([^\]]+)\]\(` at the current position.  The character class
excludes the closing bracket, and the regex continues with a literal
closing bracket, so backtracking cannot produce any match other than
the maximal run of non-bracket characters: the group is
takeWhile, and the two following literals are checked on dropWhile. -/
def matchTitle (s : List Char) : Option (List Char × List Char) :=
  let t := s.takeWhile (fun c => c != ']')
  if t = [] then none
  else
    match s.dropWhile (fun c => c != ']') with
    | ']' :: '(' :: r => some (t, r)
    | _ => none

/-- `([^)]+)\)` at the current position; deterministic for the same
reason as matchTitle. -/
def matchUrl (s : List Char) : Option (List Char × List Char) :=
  let u := s.takeWhile (fun c => c != ')')
  if u = [] then none
  else
    match s.dropWhile (fun c => c != ')') with
    | ')' :: r => some (u, r)
    | _ => none

/-- `\s*-` at the current position.  Greedy `\s*` followed by a literal
that is not itself whitespace: backtracking cannot help, so the
hyphen must be the first non-whitespace character. -/
def matchWsHyphen : List Char → Option (List Char)
  | [] => none
  | c :: rest =>
    if pyIsSpace c then matchWsHyphen rest
    else if c = '-' then some rest else none

/-- `\s*(.+)` at the end of the pattern.  Greedy `\s*` consumes
whitespace first; if `.+` then fails (end of input or a newline),
the engine backtracks one whitespace character, which `.` accepts
whenever it is not a newline. -/
def matchWsDesc : List Char → Option (List Char)
  | [] => none
  | c :: rest =>
    if pyIsSpace c then
      match matchWsDesc rest with
      | some d => some d
      | none => if c = '\n' then none else some (takeNotNl (c :: rest))
    else if c = '\n' then none else some (takeNotNl (c :: rest))

/-- pattern.match(s) for the pattern of parse_list_items; returns the
three captured groups on success. -/
def pattern_match (s : List Char) : Option ToolEntry :=
  match s with
  | '*' :: ' ' :: '[' :: r =>
    match matchTitle r with
    | none => none
    | some (t, r1) =>
      match matchUrl r1 with
      | none => none
      | some (u, r2) =>
        match matchWsHyphen r2 with
        | none => none
        | some r3 =>
          match matchWsDesc r3 with
          | none => none
          | some d => some (t, u, d)
  | _ => none

/-- The message of the RuntimeError raised on an unparsable item;
the f-string interpolates the raw buffer. -/
def parseErrMsg (b : List Char) : List Char :=
  chars "Could not parse list item: " ++ b

/-- The loop of parse_list_items, with the loop state (buffer, items)
made explicit; the [] case is the flush after the loop. -/
def parse_list_items_aux :
    List (List Char) → List Char → List ToolEntry → Except PyError (List ToolEntry)
  | [], buffer, items =>
    if buffer = [] then .ok items
    else
      match pattern_match (pyStrip buffer) with
      | none => .error (.runtimeError (parseErrMsg buffer))
      | some e => .ok (items ++ [e])
  | line :: rest, buffer, items =>
    if isBulletLine line then
      if buffer = [] then parse_list_items_aux rest (pyStrip line) items
      else
        match pattern_match (pyStrip buffer) with
        | none => .error (.runtimeError (parseErrMsg buffer))
        | some e => parse_list_items_aux rest (pyStrip line) (items ++ [e])
    else
      if buffer = [] then parse_list_items_aux rest buffer items
      else parse_list_items_aux rest (buffer ++ ' ' :: pyStrip line) items

/-- parse_list_items from genindex.py. -/
def parse_list_items (sectionLines : List (List Char)) : Except PyError (List ToolEntry) :=
  parse_list_items_aux sectionLines [] []

/-- The sequence of buffers flushed by parse_list_items, in flush
order: the same recursion as parse_list_items_aux with the grammar
check removed.  Used to state which item strings the parser matches. -/
def assembleAux : List (List Char) → List Char → List (List Char)
  | [], buffer => if buffer = [] then [] else [buffer]
  | line :: rest, buffer =>
    if isBulletLine line then
      if buffer = [] then assembleAux rest (pyStrip line)
      else buffer :: assembleAux rest (pyStrip line)
    else
      if buffer = [] then assembleAux rest buffer
      else assembleAux rest (buffer ++ ' ' :: pyStrip line)

/-- The assembled item strings of a section. -/
def assembleItems (sectionLines : List (List Char)) : List (List Char) :=
  assembleAux sectionLines []

/-- The entry produced from one assembled item (total helper; the
parser only uses it on items whose match succeeded). -/
def entryOf (b : List Char) : ToolEntry :=
  match pattern_match (pyStrip b) with
  | some e => e
  | none => ([], [], [])

/-! ## HTML Renderer (genindex.py, render_html) -/

/-- The apostrophe character (U+0027). -/
def apos : Char := Char.ofNat 39

/-- One character of html.escape.  CPython html.escape performs five
sequential str.replace calls (ampersand first); since none of the
replacement texts contains a character replaced by a later step, the
composition is this character-wise map. -/
def escapeChar (quote : Bool) (c : Char) : List Char :=
  if c = '&' then chars "&amp;"
  else if c = '<' then chars "&lt;"
  else if c = '>' then chars "&gt;"
  else if quote ∧ c = '"' then chars "&quot;"
  else if quote ∧ c = apos then chars "&#x27;"
  else [c]

/-- html.escape(s, quote).  The source calls it with quote=True for
the href attribute and with the default (also quote=True) for the
title and description texts. -/
def html_escape (quote : Bool) (s : List Char) : List Char :=
  s.flatMap (escapeChar quote)

/-- The static lines opening the rendered document. -/
def hdrLines : List (List Char) :=
  [chars "<!doctype html>",
   chars "<html>",
   chars "<head>",
   chars "  <meta charset=\"utf-8\">",
   chars "  <title>eliben browser-tools</title>",
   chars "</head>",
   chars "<body>",
   chars "  See <a href=\"https://github.com/eliben/browser-tools\">the GitHub repository</a> for details",
   chars "  <h1>List of tools</h1>",
   chars "  <ul>"]

/-- The static lines closing the rendered document. -/
def ftrLines : List (List Char) :=
  [chars "  </ul>", chars "</body>", chars "</html>"]

/-- The list item markup built for one entry in the loop of
render_html (f-string, conditional description segment, closing tag). -/
def li_line (e : ToolEntry) : List Char :=
  let base := chars "    <li><a href=\"" ++ html_escape true e.2.1 ++ chars "\">" ++
    html_escape true e.1 ++ chars "</a>"
  let withDesc := if e.2.2 = [] then base else base ++ chars " - " ++ html_escape true e.2.2
  withDesc ++ chars "</li>"

/-- "\n".join(lines). -/
def joinNl : List (List Char) → List Char
  | [] => []
  | [l] => l
  | l :: rest => l ++ '\n' :: joinNl rest

/-- render_html from genindex.py: join the static lines and the per
entry list items with newlines and append a final newline. -/
def render_html (tools : List ToolEntry) : List Char :=
  joinNl (hdrLines ++ tools.map li_line ++ ftrLines) ++ ['\n']

/-! ## Driver (genindex.py, main) -/

/-- str.splitlines, restricted to the newline separator: the final
segment is dropped when empty (a trailing newline opens no new line). -/
def splitlinesAux : List Char → List Char → List (List Char)
  | [], cur => if cur = [] then [] else [cur.reverse]
  | c :: rest, cur =>
    if c = '\n' then cur.reverse :: splitlinesAux rest []
    else splitlinesAux rest (c :: cur)

/-- Python str.splitlines (newline separators only). -/
def splitlines (s : List Char) : List (List Char) := splitlinesAux s []

/-- The abstract file-system state seen by main: the content of
index.html, if the file exists. -/
structure FileSystem where
  index_html : Option (List Char)
deriving DecidableEq

/-- main from genindex.py, given the content of README.md and the
state of the output file.  The three components run in order; an
error of any of them propagates (the process exits non-zero) and the
write of index.html never happens, so the file-system state is
returned unchanged.  On success index.html is overwritten with the
rendered text. -/
def main_run (readme : List Char) (fs : FileSystem) :
    FileSystem × Except PyError Unit :=
  match extract_section (splitlines readme) with
  | .error e => (fs, .error e)
  | .ok sec =>
    match parse_list_items sec with
    | .error e => (fs, .error e)
    | .ok tools => ({ index_html := some (render_html tools) }, .ok ())

/-! ## Statements taken from the words of the specification

The two definitions below are transcriptions of claim language, for
comparison with the code; they are not part of the embedding of the
source. -/

/-- The fixed item grammar exactly as the specification words it:
star, space, bracketed non-empty title without a closing bracket,
parenthesised non-empty url without a closing parenthesis, then a
literal space-hyphen-space separator, then a non-empty description. -/
def strictGrammarMatch (s : List Char) : Bool :=
  match s with
  | '*' :: ' ' :: '[' :: r =>
    match matchTitle r with
    | none => false
    | some (_, r1) =>
      match matchUrl r1 with
      | none => false
      | some (_, r2) =>
        match r2 with
        | ' ' :: '-' :: ' ' :: d => !d.isEmpty
        | _ => false
  | _ => false

/-- Item assembly exactly as the specification words it: a bullet
line starts a new item; a following non-bullet line whose trimmed
text is non-empty is joined with a single space; empty lines are not
joined into the item. -/
def specAssembleAux : List (List Char) → List Char → List (List Char)
  | [], buffer => if buffer = [] then [] else [buffer]
  | line :: rest, buffer =>
    if isBulletLine line then
      if buffer = [] then specAssembleAux rest (pyStrip line)
      else buffer :: specAssembleAux rest (pyStrip line)
    else
      if pyStrip line = [] then specAssembleAux rest buffer
      else
        if buffer = [] then specAssembleAux rest buffer
        else specAssembleAux rest (buffer ++ ' ' :: pyStrip line)

/-- The assembled items under the joining rule of the specification. -/
def specAssemble (sectionLines : List (List Char)) : List (List Char) :=
  specAssembleAux sectionLines []

/-- A bullet line exactly as the claim about leading non-bullet lines
words it: the TRIMMED text of the line begins with the bullet marker
(the code instead left-strips only before the test). -/
def specIsBulletTrimmed (l : List Char) : Bool :=
  (chars "* ").isPrefixOf (pyStrip l)

/-- The item grammar accepted by the code: the separator between the
closing parenthesis and the description is a hyphen surrounded by
optional whitespace (regex `\s*-\s*`), not necessarily a literal
space-hyphen-space. -/
def MatchesItemGrammar (s : List Char) : Prop :=
  ∃ t u w1 w2 d,
    s = '*' :: ' ' :: '[' :: (t ++ ']' :: '(' :: (u ++ ')' :: (w1 ++ '-' :: (w2 ++ d)))) ∧
    t ≠ [] ∧ (∀ c ∈ t, c ≠ ']') ∧
    u ≠ [] ∧ (∀ c ∈ u, c ≠ ')') ∧
    (∀ c ∈ w1, pyIsSpace c = true) ∧ (∀ c ∈ w2, pyIsSpace c = true) ∧
    d ≠ []

/-- Checker for the claim that the escaped markup has no unescaped
HTML-significant character: no raw angle bracket or double quote
anywhere, and every ampersand immediately followed by the tail of
one of the five entities emitted by the escaper. -/
def noUnescaped : List Char → Bool
  | [] => true
  | c :: rest =>
    if c = '<' ∨ c = '>' ∨ c = '"' then false
    else if c = '&' then
      ((chars "amp;").isPrefixOf rest || (chars "lt;").isPrefixOf rest ||
       (chars "gt;").isPrefixOf rest || (chars "quot;").isPrefixOf rest ||
       (chars "#x27;").isPrefixOf rest) && noUnescaped rest
    else noUnescaped rest

/-! ## List helper lemmas -/

theorem mem_of_mem_dropWhile {α : Type} {p : α → Bool} {l : List α} {x : α}
    (h : x ∈ l.dropWhile p) : x ∈ l := by
  induction l with
  | nil => simp [List.dropWhile] at h
  | cons a t ih =>
    rw [List.dropWhile] at h
    by_cases hp : p a = true
    · simp [hp] at h
      exact List.mem_cons_of_mem a (ih h)
    · simp [Bool.not_eq_true] at hp
      simp [hp] at h
      simpa using h

theorem takeWhile_split {α : Type} (p : α → Bool) (t : List α) (x : α) (rest : List α)
    (h : ∀ c ∈ t, p c = true) (hx : p x = false) :
    (t ++ x :: rest).takeWhile p = t ∧ (t ++ x :: rest).dropWhile p = x :: rest := by
  induction t with
  | nil => simp [List.takeWhile, List.dropWhile, hx]
  | cons a t ih =>
    have ha : p a = true := h a (List.mem_cons_self a t)
    have ht : ∀ c ∈ t, p c = true := fun c hc => h c (List.mem_cons_of_mem a hc)
    have := ih ht
    simp [List.takeWhile, List.dropWhile, ha, this.1, this.2]

/-! ## C3 and C4: the Section Extractor -/

theorem findHeading_append (m : List Char) (rest : List (List Char))
    (hm : isMarkerLine m = true) :
    ∀ (pre : List (List Char)) (idx : Nat), (∀ l ∈ pre, isMarkerLine l = false) →
      findHeading (pre ++ m :: rest) idx = some (idx + pre.length + 1) := by
  intro pre
  induction pre with
  | nil => intro idx _; simp [findHeading, hm]
  | cons a t ih =>
    intro idx hpre
    have ha : isMarkerLine a = false := hpre a (List.mem_cons_self a t)
    have ht : ∀ l ∈ t, isMarkerLine l = false := fun l hl => hpre l (List.mem_cons_of_mem a hl)
    have := ih (idx + 1) ht
    simp only [List.cons_append, findHeading, ha, Bool.false_eq_true, if_false,
      List.length_cons]
    have harith : idx + (t.length + 1) + 1 = idx + 1 + t.length + 1 := by omega
    rw [harith]
    exact this

theorem collectSection_eq_takeWhile (l : List (List Char)) :
    collectSection l = l.takeWhile (fun s => !startsHash s) := by
  induction l with
  | nil => rfl
  | cons a t ih =>
    by_cases h : startsHash a = true
    · simp [collectSection, List.takeWhile, h]
    · simp only [Bool.not_eq_true] at h
      simp [collectSection, List.takeWhile, h, ih]

/-- C3: when the document contains a marker line (trimmed, lowercased
text equal to "## list of tools"), extract_section succeeds and
returns exactly the lines strictly after the first such line, up to
but not including the next line beginning with the character # (all
remaining lines when no such line exists), in original order; the
marker line itself is not part of the result. -/
theorem extract_section_first_marker (pre : List (List Char)) (m : List Char)
    (rest : List (List Char)) (hm : isMarkerLine m = true)
    (hpre : ∀ l ∈ pre, isMarkerLine l = false) :
    extract_section (pre ++ m :: rest) =
      .ok (rest.takeWhile (fun s => !startsHash s)) := by
  have hfind := findHeading_append m rest hm pre 0 hpre
  have hdrop : (pre ++ m :: rest).drop (pre.length + 1) = rest := by
    have h1 : pre ++ m :: rest = (pre ++ [m]) ++ rest := by simp
    have h2 : pre.length + 1 = (pre ++ [m]).length := by simp
    rw [h1, h2, List.drop_left]
  simp only [extract_section, hfind, Nat.zero_add, hdrop, collectSection_eq_takeWhile]

theorem extract_section_first_marker_witness :
    extract_section [chars "x", chars "  ## List Of Tools", chars "a", chars "# next", chars "b"] =
      .ok [chars "a"] := by
  have h := extract_section_first_marker [chars "x"] (chars "  ## List Of Tools")
    [chars "a", chars "# next", chars "b"] (by decide) (by decide)
  exact h.trans rfl

theorem findHeading_none (docLines : List (List Char)) (idx : Nat)
    (h : ∀ l ∈ docLines, isMarkerLine l = false) :
    findHeading docLines idx = none := by
  induction docLines generalizing idx with
  | nil => rfl
  | cons a t ih =>
    have ha : isMarkerLine a = false := h a (List.mem_cons_self a t)
    have ht : ∀ l ∈ t, isMarkerLine l = false := fun l hl => h l (List.mem_cons_of_mem a hl)
    simp [findHeading, ha, ih _ ht]

/-- C4: when no line of the document has trimmed, lowercased text
equal to "## list of tools", extract_section fails with the
RuntimeError whose message names the missing heading (the message
contains the heading text "## List of tools" verbatim), regardless
of the rest of the document. -/
theorem extract_section_missing (docLines : List (List Char))
    (h : ∀ l ∈ docLines, isMarkerLine l = false) :
    extract_section docLines = .error (.runtimeError headingMsg) ∧
      ∃ a b, headingMsg = a ++ chars "## List of tools" ++ b := by
  refine ⟨?_, chars "Could not find '", chars "' heading in README.md", by rfl⟩
  simp [extract_section, findHeading_none docLines 0 h]

theorem extract_section_missing_witness :
    extract_section [chars "# title", chars "text"] = .error (.runtimeError headingMsg) ∧
      ∃ a b, headingMsg = a ++ chars "## List of tools" ++ b :=
  extract_section_missing [chars "# title", chars "text"] (by decide)

/-! ## The parser loop, characterised through its assembled items -/

/-- The parser loop processes exactly the assembled buffers, in
order: it fails on the first buffer the pattern rejects (with the
message built from that raw buffer) and otherwise appends one entry
per buffer to the accumulated items. -/
theorem parse_aux_eq (sectionLines : List (List Char)) :
    ∀ (buffer : List Char) (items : List ToolEntry),
      parse_list_items_aux sectionLines buffer items =
        match (assembleAux sectionLines buffer).find?
            (fun b => (pattern_match (pyStrip b)).isNone) with
        | some bad => .error (.runtimeError (parseErrMsg bad))
        | none => .ok (items ++ (assembleAux sectionLines buffer).map entryOf) := by
  induction sectionLines with
  | nil =>
    intro buffer items
    by_cases hb : buffer = []
    · simp [parse_list_items_aux, assembleAux, hb]
    · cases hpm : pattern_match (pyStrip buffer) with
      | none =>
        have hLHS : parse_list_items_aux [] buffer items =
            .error (.runtimeError (parseErrMsg buffer)) := by
          simp [parse_list_items_aux, hb, hpm]
        have hAsm : assembleAux [] buffer = [buffer] := by simp [assembleAux, hb]
        rw [hLHS, hAsm, List.find?_cons_of_pos _ (by simp [hpm])]
      | some e =>
        have hLHS : parse_list_items_aux [] buffer items = .ok (items ++ [e]) := by
          simp [parse_list_items_aux, hb, hpm]
        have hAsm : assembleAux [] buffer = [buffer] := by simp [assembleAux, hb]
        rw [hLHS, hAsm, List.find?_cons_of_neg _ (by simp [hpm])]
        simp [entryOf, hpm]
  | cons line rest ih =>
    intro buffer items
    by_cases hl : isBulletLine line = true
    · by_cases hb : buffer = []
      · have hLHS : parse_list_items_aux (line :: rest) buffer items =
            parse_list_items_aux rest (pyStrip line) items := by
          simp [parse_list_items_aux, hl, hb]
        have hAsm : assembleAux (line :: rest) buffer =
            assembleAux rest (pyStrip line) := by
          simp [assembleAux, hl, hb]
        rw [hLHS, hAsm, ih (pyStrip line) items]
      · cases hpm : pattern_match (pyStrip buffer) with
        | none =>
          have hLHS : parse_list_items_aux (line :: rest) buffer items =
              .error (.runtimeError (parseErrMsg buffer)) := by
            simp [parse_list_items_aux, hl, hb, hpm]
          have hAsm : assembleAux (line :: rest) buffer =
              buffer :: assembleAux rest (pyStrip line) := by
            simp [assembleAux, hl, hb]
          rw [hLHS, hAsm, List.find?_cons_of_pos _ (by simp [hpm])]
        | some e =>
          have hLHS : parse_list_items_aux (line :: rest) buffer items =
              parse_list_items_aux rest (pyStrip line) (items ++ [e]) := by
            simp [parse_list_items_aux, hl, hb, hpm]
          have hAsm : assembleAux (line :: rest) buffer =
              buffer :: assembleAux rest (pyStrip line) := by
            simp [assembleAux, hl, hb]
          rw [hLHS, hAsm, ih (pyStrip line) (items ++ [e]),
            List.find?_cons_of_neg _ (by simp [hpm])]
          cases hf : (assembleAux rest (pyStrip line)).find?
              (fun b => (pattern_match (pyStrip b)).isNone) with
          | some bad => rfl
          | none => simp [entryOf, hpm, List.append_assoc]
    · by_cases hb : buffer = []
      · have hLHS : parse_list_items_aux (line :: rest) buffer items =
            parse_list_items_aux rest buffer items := by
          simp [parse_list_items_aux, hl, hb]
        have hAsm : assembleAux (line :: rest) buffer = assembleAux rest buffer := by
          simp [assembleAux, hl, hb]
        rw [hLHS, hAsm, ih buffer items]
      · have hLHS : parse_list_items_aux (line :: rest) buffer items =
            parse_list_items_aux rest (buffer ++ ' ' :: pyStrip line) items := by
          simp [parse_list_items_aux, hl, hb]
        have hAsm : assembleAux (line :: rest) buffer =
            assembleAux rest (buffer ++ ' ' :: pyStrip line) := by
          simp [assembleAux, hl, hb]
        rw [hLHS, hAsm, ih (buffer ++ ' ' :: pyStrip line) items]

/-- parse_list_items stated through the assembled items. -/
theorem parse_eq_assemble (sectionLines : List (List Char)) :
    parse_list_items sectionLines =
      match (assembleItems sectionLines).find?
          (fun b => (pattern_match (pyStrip b)).isNone) with
      | some bad => .error (.runtimeError (parseErrMsg bad))
      | none => .ok ((assembleItems sectionLines).map entryOf) := by
  have := parse_aux_eq sectionLines [] []
  simpa [parse_list_items, assembleItems] using this

/-! ## C7: source order, no sorting, no deduplication -/

/-- C7: a successful parse returns exactly one entry per assembled
item, in the order the items occur in the section (the result is the
pointwise image of the assembled item list, so nothing is sorted,
deduplicated or dropped), and the empty section parses to the empty
entry list. -/
theorem parse_list_items_order (sectionLines : List (List Char)) (es : List ToolEntry)
    (h : parse_list_items sectionLines = .ok es) :
    es = (assembleItems sectionLines).map entryOf ∧
      parse_list_items ([] : List (List Char)) = .ok ([] : List ToolEntry) := by
  refine ⟨?_, rfl⟩
  have hp := parse_eq_assemble sectionLines
  rw [h] at hp
  cases hf : (assembleItems sectionLines).find?
      (fun b => (pattern_match (pyStrip b)).isNone) with
  | some bad => rw [hf] at hp; exact absurd hp (by simp)
  | none =>
    rw [hf] at hp
    simpa using hp

theorem parse_list_items_order_witness :
    ([(chars "A", chars "u", chars "d"), (chars "A", chars "u", chars "d")] : List ToolEntry) =
      (assembleItems [chars "* [A](u) - d", chars "* [A](u) - d"]).map entryOf ∧
      parse_list_items ([] : List (List Char)) = .ok ([] : List ToolEntry) :=
  parse_list_items_order [chars "* [A](u) - d", chars "* [A](u) - d"]
    [(chars "A", chars "u", chars "d"), (chars "A", chars "u", chars "d")] (by rfl)

/-! ## C10: non-bullet lines before the first bullet are discarded -/

theorem parse_aux_skip (pre : List (List Char)) (h : ∀ l ∈ pre, isBulletLine l = false) :
    ∀ (rest : List (List Char)) (items : List ToolEntry),
      parse_list_items_aux (pre ++ rest) [] items = parse_list_items_aux rest [] items := by
  induction pre with
  | nil => intro rest items; rfl
  | cons a t ih =>
    intro rest items
    have ha : isBulletLine a = false := h a (List.mem_cons_self a t)
    have ht : ∀ l ∈ t, isBulletLine l = false := fun l hl => h l (List.mem_cons_of_mem a hl)
    have step : parse_list_items_aux ((a :: t) ++ rest) [] items =
        parse_list_items_aux (t ++ rest) [] items := by
      simp [parse_list_items_aux, ha]
    rw [step, ih ht rest items]

/-- C10 (amended): any run of lines at the start of the section that
fail the code's bullet test (the LEFT-stripped text does not begin
with the bullet marker) is silently discarded: parsing with them
present equals parsing without them (no error, no contribution to
any entry), and a section made only of such lines parses to the
empty entry list.  The amendment replaces the trimmed-text bullet
test of the original claim by the left-strip test the code performs;
the two differ, see the counterexample. -/
theorem parse_list_items_skips_leading (pre rest : List (List Char))
    (h : ∀ l ∈ pre, isBulletLine l = false) :
    parse_list_items (pre ++ rest) = parse_list_items rest ∧
      parse_list_items pre = .ok ([] : List ToolEntry) := by
  constructor
  · exact parse_aux_skip pre h rest []
  · have := parse_aux_skip pre h [] []
    simpa [parse_list_items] using this

theorem parse_list_items_skips_leading_witness :
    parse_list_items ([chars "intro text", chars "  more, indented"] ++
        [chars "* [A](u) - d"]) =
      parse_list_items [chars "* [A](u) - d"] ∧
      parse_list_items [chars "intro text", chars "  more, indented"] =
        .ok ([] : List ToolEntry) :=
  parse_list_items_skips_leading [chars "intro text", chars "  more, indented"]
    [chars "* [A](u) - d"] (by decide)

/-- C10 counterexample: the line of a star followed by two spaces is
a non-bullet line by the wording of the claim (its trimmed text is a
bare star, which does not begin with star-space), yet the code,
which only left-strips before the test, takes it as a bullet: a
section consisting of this line alone is not silently discarded but
raises the RuntimeError for the unparsable buffered item, instead of
yielding the empty sequence. -/
theorem parse_skips_leading_counterexample :
    specIsBulletTrimmed (chars "*  ") = false ∧
      isBulletLine (chars "*  ") = true ∧
      parse_list_items [chars "*  "] =
        .error (.runtimeError (parseErrMsg (chars "*"))) :=
  ⟨rfl, rfl, rfl⟩

/-! ## Characterisation of the regular expression -/

theorem takeNotNl_eq_self (s : List Char) (h : '\n' ∉ s) : takeNotNl s = s := by
  induction s with
  | nil => rfl
  | cons c rest ih =>
    have hc : c ≠ '\n' := fun hc => h (hc ▸ List.mem_cons_self c rest)
    have hrest : '\n' ∉ rest := fun hm => h (List.mem_cons_of_mem c hm)
    simp [takeNotNl, List.takeWhile, bne_iff_ne.mpr hc]
    simpa [takeNotNl] using ih hrest

theorem matchTitle_some_iff (s t r : List Char) :
    matchTitle s = some (t, r) ↔
      (s = t ++ ']' :: '(' :: r ∧ t ≠ [] ∧ ∀ c ∈ t, c ≠ ']') := by
  constructor
  · intro h
    simp only [matchTitle] at h
    split at h
    · exact absurd h (by simp)
    · rename_i hne
      split at h
      · rename_i r' heq
        obtain ⟨ht, hr⟩ : s.takeWhile (fun c => c != ']') = t ∧ r' = r := by
          cases h; exact ⟨rfl, rfl⟩
        refine ⟨?_, ht ▸ hne, ?_⟩
        · have := List.takeWhile_append_dropWhile (fun c => c != ']') s
          rw [ht, heq, hr] at this
          exact this.symm
        · intro c hc
          have := List.mem_takeWhile_imp (ht ▸ hc)
          exact bne_iff_ne.mp this
      · exact absurd h (by simp)
  · rintro ⟨hs, hne, hmem⟩
    have hsplit := takeWhile_split (fun c => c != ']') t ']' ('(' :: r)
      (fun c hc => bne_iff_ne.mpr (hmem c hc)) (by decide)
    rw [hs]
    simp only [matchTitle, hsplit.1, hsplit.2, hne, if_neg]
    simp [hne]

theorem matchUrl_some_iff (s u r : List Char) :
    matchUrl s = some (u, r) ↔
      (s = u ++ ')' :: r ∧ u ≠ [] ∧ ∀ c ∈ u, c ≠ ')') := by
  constructor
  · intro h
    simp only [matchUrl] at h
    split at h
    · exact absurd h (by simp)
    · rename_i hne
      split at h
      · rename_i r' heq
        obtain ⟨hu, hr⟩ : s.takeWhile (fun c => c != ')') = u ∧ r' = r := by
          cases h; exact ⟨rfl, rfl⟩
        refine ⟨?_, hu ▸ hne, ?_⟩
        · have := List.takeWhile_append_dropWhile (fun c => c != ')') s
          rw [hu, heq, hr] at this
          exact this.symm
        · intro c hc
          have := List.mem_takeWhile_imp (hu ▸ hc)
          exact bne_iff_ne.mp this
      · exact absurd h (by simp)
  · rintro ⟨hs, hne, hmem⟩
    have hsplit := takeWhile_split (fun c => c != ')') u ')' r
      (fun c hc => bne_iff_ne.mpr (hmem c hc)) (by decide)
    rw [hs]
    simp only [matchUrl, hsplit.1, hsplit.2, hne, if_neg]
    simp [hne]

theorem matchWsHyphen_some_iff (s r : List Char) :
    matchWsHyphen s = some r ↔
      ∃ w, s = w ++ '-' :: r ∧ ∀ c ∈ w, pyIsSpace c = true := by
  constructor
  · intro h
    induction s generalizing r with
    | nil => exact absurd h (by simp [matchWsHyphen])
    | cons c rest ih =>
      by_cases hsp : pyIsSpace c = true
      · have h' : matchWsHyphen rest = some r := by
          simpa [matchWsHyphen, hsp] using h
        obtain ⟨w, hw, hmem⟩ := ih r h'
        refine ⟨c :: w, by simp [hw], fun x hx => ?_⟩
        rcases List.mem_cons.mp hx with h1 | h2
        · exact h1 ▸ hsp
        · exact hmem x h2
      · by_cases hc : c = '-'
        · simp only [matchWsHyphen, if_neg hsp, if_pos hc] at h
          exact ⟨[], by simp [hc, Option.some.inj h], by simp⟩
        · simp only [matchWsHyphen, if_neg hsp, if_neg hc] at h
          cases h
  · rintro ⟨w, hw, hmem⟩
    subst hw
    induction w with
    | nil => rfl
    | cons c w' ih =>
      have hc : pyIsSpace c = true := hmem c (List.mem_cons_self c w')
      have hmem' : ∀ x ∈ w', pyIsSpace x = true :=
        fun x hx => hmem x (List.mem_cons_of_mem c hx)
      simpa [matchWsHyphen, hc] using ih hmem'

theorem matchWsDesc_ne_nil (s d : List Char) (h : matchWsDesc s = some d) : d ≠ [] := by
  induction s generalizing d with
  | nil => exact absurd h (by simp [matchWsDesc])
  | cons c rest ih =>
    by_cases hsp : pyIsSpace c = true
    · rw [matchWsDesc, if_pos hsp] at h
      cases hrec : matchWsDesc rest with
      | some d' =>
        rw [hrec] at h
        exact Option.some.inj h ▸ ih d' hrec
      | none =>
        rw [hrec] at h
        by_cases hc : c = '\n'
        · simp [hc] at h
        · rw [if_neg hc] at h
          have hd : d = takeNotNl (c :: rest) := (Option.some.inj h).symm
          rw [hd, takeNotNl, List.takeWhile_cons, if_pos (bne_iff_ne.mpr hc)]
          simp
    · rw [matchWsDesc, if_neg hsp] at h
      have hc : c ≠ '\n' := by
        intro hcc; rw [hcc] at hsp; exact hsp (by decide)
      rw [if_neg hc] at h
      have hd : d = takeNotNl (c :: rest) := (Option.some.inj h).symm
      rw [hd, takeNotNl, List.takeWhile_cons, if_pos (bne_iff_ne.mpr hc)]
      simp

theorem matchWsDesc_sound (s d : List Char) (hnl : '\n' ∉ s)
    (h : matchWsDesc s = some d) :
    ∃ w, s = w ++ d ∧ ∀ c ∈ w, pyIsSpace c = true := by
  induction s generalizing d with
  | nil => exact absurd h (by simp [matchWsDesc])
  | cons c rest ih =>
    have hc : c ≠ '\n' := fun hcc => hnl (hcc ▸ List.mem_cons_self c rest)
    have hnlr : '\n' ∉ rest := fun hm => hnl (List.mem_cons_of_mem c hm)
    by_cases hsp : pyIsSpace c = true
    · rw [matchWsDesc, if_pos hsp] at h
      cases hrec : matchWsDesc rest with
      | some d' =>
        rw [hrec] at h
        have hdd : d' = d := Option.some.inj h
        obtain ⟨w, hw, hmem⟩ := ih d hnlr (hdd ▸ hrec)
        refine ⟨c :: w, by simp [hw], fun x hx => ?_⟩
        rcases List.mem_cons.mp hx with h1 | h2
        · exact h1 ▸ hsp
        · exact hmem x h2
      | none =>
        rw [hrec, if_neg hc] at h
        have hd : d = c :: rest := by
          rw [(Option.some.inj h).symm, takeNotNl_eq_self (c :: rest) hnl]
        exact ⟨[], by simp [hd], by simp⟩
    · rw [matchWsDesc, if_neg hsp, if_neg hc] at h
      have hd : d = c :: rest := by
        rw [(Option.some.inj h).symm, takeNotNl_eq_self (c :: rest) hnl]
      exact ⟨[], by simp [hd], by simp⟩

theorem matchWsDesc_complete (w d : List Char) (hd : d ≠ [])
    (hmem : ∀ c ∈ w, pyIsSpace c = true) (hnl : '\n' ∉ w ++ d) :
    ∃ d', matchWsDesc (w ++ d) = some d' := by
  induction w with
  | nil =>
    cases d with
    | nil => exact absurd rfl hd
    | cons c rest =>
      have hc : c ≠ '\n' := fun hcc => hnl (by simp [hcc])
      by_cases hsp : pyIsSpace c = true
      · rw [List.nil_append]
        cases hrec : matchWsDesc rest with
        | some d' => exact ⟨d', by rw [matchWsDesc, if_pos hsp, hrec]⟩
        | none =>
          exact ⟨takeNotNl (c :: rest), by rw [matchWsDesc, if_pos hsp, hrec, if_neg hc]⟩
      · rw [List.nil_append]
        exact ⟨takeNotNl (c :: rest), by rw [matchWsDesc, if_neg hsp, if_neg hc]⟩
  | cons c w' ih =>
    have hc : pyIsSpace c = true := hmem c (List.mem_cons_self c w')
    have hmem' : ∀ x ∈ w', pyIsSpace x = true :=
      fun x hx => hmem x (List.mem_cons_of_mem c hx)
    have hnl' : '\n' ∉ w' ++ d := fun hm => hnl (by simp at hm ⊢; tauto)
    obtain ⟨d', hrec⟩ := ih hmem' hnl'
    exact ⟨d', by rw [List.cons_append, matchWsDesc, if_pos hc, hrec]⟩

/-- The nested matches of pattern_match at a string with the right
three-character head, written with Option.bind for rewriting. -/
theorem pattern_match_eq (r : List Char) :
    pattern_match ('*' :: ' ' :: '[' :: r) =
      (matchTitle r).bind (fun pr =>
        (matchUrl pr.2).bind (fun pu =>
          (matchWsHyphen pu.2).bind (fun r3 =>
            (matchWsDesc r3).map (fun d => (pr.1, pu.1, d))))) := by
  show (match matchTitle r with
    | none => none
    | some (t, r1) =>
      match matchUrl r1 with
      | none => none
      | some (u, r2) =>
        match matchWsHyphen r2 with
        | none => none
        | some r3 =>
          match matchWsDesc r3 with
          | none => none
          | some d => some (t, u, d)) = _
  cases hT : matchTitle r with
  | none => rfl
  | some pr =>
    obtain ⟨t, r1⟩ := pr
    simp only [Option.some_bind]
    cases hU : matchUrl r1 with
    | none => rfl
    | some pu =>
      obtain ⟨u, r2⟩ := pu
      simp only [Option.some_bind]
      cases hH : matchWsHyphen r2 with
      | none => rfl
      | some r3 =>
        simp only [Option.some_bind]
        cases hD : matchWsDesc r3 with
        | none => rfl
        | some d => rfl

/-- A match only succeeds on a string opening with star, space and
the opening bracket. -/
theorem pattern_match_shape (s : List Char) (e : ToolEntry)
    (h : pattern_match s = some e) : ∃ r, s = '*' :: ' ' :: '[' :: r := by
  unfold pattern_match at h
  split at h
  · rename_i r
    exact ⟨r, rfl⟩
  · cases h

/-- A successful match captures three non-empty groups (each group
of the pattern requires at least one character). -/
theorem pattern_match_groups (s t u d : List Char)
    (h : pattern_match s = some (t, u, d)) : t ≠ [] ∧ u ≠ [] ∧ d ≠ [] := by
  obtain ⟨r, hs⟩ := pattern_match_shape s (t, u, d) h
  rw [hs, pattern_match_eq r] at h
  cases hT : matchTitle r with
  | none => rw [hT] at h; cases h
  | some pr =>
    obtain ⟨t', r1⟩ := pr
    rw [hT, Option.some_bind] at h
    cases hU : matchUrl r1 with
    | none => simp [hU] at h
    | some pu =>
      obtain ⟨u', r2⟩ := pu
      rw [hU, Option.some_bind] at h
      cases hH : matchWsHyphen r2 with
      | none => simp [hH] at h
      | some r3 =>
        rw [hH, Option.some_bind] at h
        cases hD : matchWsDesc r3 with
        | none => simp [hD] at h
        | some d' =>
          rw [hD, Option.map_some'] at h
          obtain ⟨ht, hu, hd⟩ : t' = t ∧ u' = u ∧ d' = d := by
            cases h; exact ⟨rfl, rfl, rfl⟩
          refine ⟨?_, ?_, ?_⟩
          · exact ht ▸ ((matchTitle_some_iff r t' r1).mp hT).2.1
          · exact hu ▸ ((matchUrl_some_iff r1 u' r2).mp hU).2.1
          · exact hd ▸ matchWsDesc_ne_nil r3 d' hD

/-- The pattern succeeds on a newline-free string exactly when the
string decomposes as the relaxed grammar: star, space, bracketed
non-empty title, parenthesised non-empty url, then a hyphen
surrounded by optional whitespace and a non-empty description. -/
theorem pattern_match_some_iff (s : List Char) (hnl : '\n' ∉ s) :
    (∃ e, pattern_match s = some e) ↔ MatchesItemGrammar s := by
  constructor
  · rintro ⟨⟨t, u, d⟩, h⟩
    obtain ⟨r, hs⟩ := pattern_match_shape s (t, u, d) h
    rw [hs, pattern_match_eq r] at h
    cases hT : matchTitle r with
    | none => rw [hT] at h; cases h
    | some pr =>
      obtain ⟨t', r1⟩ := pr
      rw [hT, Option.some_bind] at h
      cases hU : matchUrl r1 with
      | none => simp [hU] at h
      | some pu =>
        obtain ⟨u', r2⟩ := pu
        rw [hU, Option.some_bind] at h
        cases hH : matchWsHyphen r2 with
        | none => simp [hH] at h
        | some r3 =>
          rw [hH, Option.some_bind] at h
          cases hD : matchWsDesc r3 with
          | none => simp [hD] at h
          | some d' =>
            obtain ⟨hr, htne, htm⟩ := (matchTitle_some_iff r t' r1).mp hT
            obtain ⟨hr1, hune, hum⟩ := (matchUrl_some_iff r1 u' r2).mp hU
            obtain ⟨w1, hr2, hw1⟩ := (matchWsHyphen_some_iff r2 r3).mp hH
            have hnl3 : '\n' ∉ r3 := by
              intro hin
              apply hnl
              rw [hs, hr, hr1, hr2]
              simp [hin]
            obtain ⟨w2, hr3, hw2⟩ := matchWsDesc_sound r3 d' hnl3 hD
            refine ⟨t', u', w1, w2, d', ?_, htne, htm, hune, hum, hw1, hw2,
              matchWsDesc_ne_nil r3 d' hD⟩
            rw [hs, hr, hr1, hr2, hr3]
  · rintro ⟨t, u, w1, w2, d, hs, htne, htm, hune, hum, hw1, hw2, hdne⟩
    have hT := (matchTitle_some_iff (t ++ ']' :: '(' :: (u ++ ')' :: (w1 ++ '-' :: (w2 ++ d))))
      t (u ++ ')' :: (w1 ++ '-' :: (w2 ++ d)))).mpr ⟨rfl, htne, htm⟩
    have hU := (matchUrl_some_iff (u ++ ')' :: (w1 ++ '-' :: (w2 ++ d)))
      u (w1 ++ '-' :: (w2 ++ d))).mpr ⟨rfl, hune, hum⟩
    have hH := (matchWsHyphen_some_iff (w1 ++ '-' :: (w2 ++ d)) (w2 ++ d)).mpr ⟨w1, rfl, hw1⟩
    have hnl2 : '\n' ∉ w2 ++ d := by
      intro hin
      apply hnl
      rw [hs]
      simp at hin ⊢
      tauto
    obtain ⟨d', hD⟩ := matchWsDesc_complete w2 d hdne hw2 hnl2
    refine ⟨(t, u, d'), ?_⟩
    rw [hs, pattern_match_eq, hT, Option.some_bind]
    simp only []
    rw [hU, Option.some_bind]
    simp only []
    rw [hH, Option.some_bind, hD, Option.map_some']

/-! ## Newline-freeness of assembled items -/

theorem mem_of_mem_pyStrip {c : Char} {s : List Char} (h : c ∈ pyStrip s) : c ∈ s := by
  unfold pyStrip pyRstrip pyLstrip at h
  have h1 := List.mem_reverse.mp h
  have h2 := mem_of_mem_dropWhile h1
  have h3 := List.mem_reverse.mp h2
  exact mem_of_mem_dropWhile h3

theorem assembleAux_no_newline (sectionLines : List (List Char))
    (hnl : ∀ l ∈ sectionLines, '\n' ∉ l) :
    ∀ buffer, '\n' ∉ buffer → ∀ b ∈ assembleAux sectionLines buffer, '\n' ∉ b := by
  induction sectionLines with
  | nil =>
    intro buffer hb b hbm
    by_cases hbe : buffer = []
    · simp [assembleAux, hbe] at hbm
    · simp [assembleAux, hbe] at hbm
      exact hbm ▸ hb
  | cons line rest ih =>
    intro buffer hb b hbm
    have hline : '\n' ∉ line := hnl line (List.mem_cons_self line rest)
    have hrest : ∀ l ∈ rest, '\n' ∉ l := fun l hl => hnl l (List.mem_cons_of_mem line hl)
    have hstripline : '\n' ∉ pyStrip line := fun hm => hline (mem_of_mem_pyStrip hm)
    by_cases hl : isBulletLine line = true
    · by_cases hbe : buffer = []
      · rw [assembleAux, if_pos hl, if_pos hbe] at hbm
        exact ih hrest (pyStrip line) hstripline b hbm
      · rw [assembleAux, if_pos hl, if_neg hbe] at hbm
        rcases List.mem_cons.mp hbm with h1 | h2
        · exact h1 ▸ hb
        · exact ih hrest (pyStrip line) hstripline b h2
    · by_cases hbe : buffer = []
      · rw [assembleAux, if_neg hl, if_pos hbe] at hbm
        exact ih hrest buffer hb b hbm
      · rw [assembleAux, if_neg hl, if_neg hbe] at hbm
        refine ih hrest (buffer ++ ' ' :: pyStrip line) ?_ b hbm
        intro hm
        rcases List.mem_append.mp hm with h1 | h2
        · exact hb h1
        · rcases List.mem_cons.mp h2 with h3 | h4
          · cases h3
          · exact hstripline h4

/-! ## C1: which assembled items the parser accepts -/

/-- C1 counterexample: an item whose separator is a bare hyphen with
no surrounding spaces is not in the grammar the claim states (a
literal space-hyphen-space separator), yet parse_list_items accepts
it — the regex separator is optional whitespace around the hyphen. -/
theorem parse_strict_grammar_counterexample :
    parse_list_items [chars "* [T](U)-D"] = .ok [(chars "T", chars "U", chars "D")] ∧
      strictGrammarMatch (pyStrip (chars "* [T](U)-D")) = false ∧
      assembleItems [chars "* [T](U)-D"] = [chars "* [T](U)-D"] :=
  ⟨rfl, rfl, rfl⟩

/-- C1 (amended): parse_list_items succeeds exactly when every
assembled item, after trimming, matches the grammar with the relaxed
separator (hyphen surrounded by optional whitespace); otherwise it
raises the RuntimeError whose message contains the offending raw
item text, and no entries are returned. -/
theorem parse_list_items_grammar (sectionLines : List (List Char))
    (hnl : ∀ l ∈ sectionLines, '\n' ∉ l) :
    ((∃ es, parse_list_items sectionLines = .ok es) ↔
      ∀ b ∈ assembleItems sectionLines, MatchesItemGrammar (pyStrip b)) ∧
    (∀ m, parse_list_items sectionLines = .error (.runtimeError m) →
      ∃ b ∈ assembleItems sectionLines, ¬ MatchesItemGrammar (pyStrip b) ∧
        ∃ x, m = x ++ b) := by
  have hstrip : ∀ b ∈ assembleItems sectionLines, '\n' ∉ pyStrip b := by
    intro b hb hc
    exact assembleAux_no_newline sectionLines hnl [] (by simp) b hb (mem_of_mem_pyStrip hc)
  have hp := parse_eq_assemble sectionLines
  cases hf : (assembleItems sectionLines).find?
      (fun b => (pattern_match (pyStrip b)).isNone) with
  | some bad =>
    rw [hf] at hp
    have hbadmem : bad ∈ assembleItems sectionLines := List.mem_of_find?_eq_some hf
    have hbadnone : pattern_match (pyStrip bad) = none := by
      have := List.find?_some hf
      simpa using this
    have hbadno : ¬ MatchesItemGrammar (pyStrip bad) := by
      intro hg
      obtain ⟨e, he⟩ := (pattern_match_some_iff (pyStrip bad) (hstrip bad hbadmem)).mpr hg
      rw [hbadnone] at he
      cases he
    constructor
    · constructor
      · rintro ⟨es, hes⟩
        rw [hp] at hes
        cases hes
      · intro hall
        exact absurd (hall bad hbadmem) hbadno
    · intro m hm
      rw [hp] at hm
      have : parseErrMsg bad = m := by cases hm; rfl
      exact ⟨bad, hbadmem, hbadno, chars "Could not parse list item: ", this ▸ rfl⟩
  | none =>
    rw [hf] at hp
    constructor
    · constructor
      · intro _ b hb
        have hnotnone := List.find?_eq_none.mp hf b hb
        cases hpm : pattern_match (pyStrip b) with
        | none => rw [hpm] at hnotnone; simp at hnotnone
        | some e =>
          exact (pattern_match_some_iff (pyStrip b) (hstrip b hb)).mp ⟨e, hpm⟩
      · intro _
        exact ⟨(assembleItems sectionLines).map entryOf, hp⟩
    · intro m hm
      rw [hp] at hm
      cases hm

theorem parse_list_items_grammar_witness :
    (∃ es, parse_list_items [chars "* [T](U) - D"] = .ok es) ↔
      ∀ b ∈ assembleItems [chars "* [T](U) - D"], MatchesItemGrammar (pyStrip b) :=
  (parse_list_items_grammar [chars "* [T](U) - D"] (by decide)).1

/-! ## C2: how continuation lines are joined -/

/-- C2 counterexample: with an empty line standing between the
bullet line and a continuation line, the code joins all three lines
(the empty line contributes a lone space), producing a description
with a doubled space, while the joining rule of the claim (empty
lines not joined) would produce a single space. -/
theorem parse_joining_counterexample :
    parse_list_items [chars "* [T](U) - a", chars "", chars "b"] =
      .ok [(chars "T", chars "U", chars "a  b")] ∧
    assembleItems [chars "* [T](U) - a", chars "", chars "b"] =
      [chars "* [T](U) - a  b"] ∧
    specAssemble [chars "* [T](U) - a", chars "", chars "b"] =
      [chars "* [T](U) - a b"] ∧
    assembleItems [chars "* [T](U) - a", chars "", chars "b"] ≠
      specAssemble [chars "* [T](U) - a", chars "", chars "b"] :=
  ⟨rfl, rfl, rfl, by decide⟩

theorem dropWhile_ne_nil_of_mem {p : Char → Bool} {l : List Char} {x : Char}
    (hx : x ∈ l) (hpx : p x = false) : l.dropWhile p ≠ [] := by
  intro h
  have := List.dropWhile_eq_nil_iff.mp h x hx
  rw [hpx] at this
  cases this

theorem pyLstrip_bullet (b : List Char) (hb : isBulletLine b = true) :
    ∃ xs, pyLstrip b = '*' :: ' ' :: xs := by
  unfold isBulletLine at hb
  cases hl : pyLstrip b with
  | nil => rw [hl] at hb; cases hb
  | cons c1 l1 =>
    cases l1 with
    | nil =>
      rw [hl] at hb
      simp [chars, List.isPrefixOf] at hb
    | cons c2 l2 =>
      rw [hl] at hb
      simp [chars, List.isPrefixOf] at hb
      exact ⟨l2, by rw [hb.1, hb.2]⟩

theorem pyStrip_bullet_ne_nil (b : List Char) (hb : isBulletLine b = true) :
    pyStrip b ≠ [] := by
  obtain ⟨xs, hxs⟩ := pyLstrip_bullet b hb
  unfold pyStrip pyRstrip
  rw [hxs]
  intro h
  have h2 : (('*' :: ' ' :: xs).reverse.dropWhile pyIsSpace) = [] :=
    List.reverse_eq_nil_iff.mp h
  refine dropWhile_ne_nil_of_mem (x := '*') ?_ (by decide) h2
  rw [List.mem_reverse]
  exact List.mem_cons_self _ _

theorem assembleAux_nonbullet (conts : List (List Char))
    (hc : ∀ l ∈ conts, isBulletLine l = false) :
    ∀ buffer, buffer ≠ [] →
      assembleAux conts buffer =
        [buffer ++ conts.flatMap (fun l => ' ' :: pyStrip l)] := by
  induction conts with
  | nil => intro buffer hb; simp [assembleAux, hb]
  | cons l t ih =>
    intro buffer hb
    have hl : isBulletLine l = false := hc l (List.mem_cons_self l t)
    have ht : ∀ x ∈ t, isBulletLine x = false := fun x hx => hc x (List.mem_cons_of_mem l hx)
    rw [assembleAux, if_neg (by simp [hl]), if_neg hb,
      ih ht (buffer ++ ' ' :: pyStrip l) (by simp)]
    simp [List.append_assoc]

/-- C2 (amended): a bullet line followed by any non-bullet lines is
assembled into one item before grammar matching: the trimmed bullet
line, with one space plus the trimmed text of each following line
appended — including empty lines, which therefore contribute a lone
space each — and parse_list_items matches the pattern against this
single assembled string. -/
theorem assemble_joins_continuations (b : List Char) (conts : List (List Char))
    (hb : isBulletLine b = true) (hc : ∀ l ∈ conts, isBulletLine l = false) :
    assembleItems (b :: conts) =
      [pyStrip b ++ conts.flatMap (fun l => ' ' :: pyStrip l)] ∧
    parse_list_items (b :: conts) =
      (match pattern_match (pyStrip (pyStrip b ++ conts.flatMap (fun l => ' ' :: pyStrip l))) with
      | none => .error (.runtimeError (parseErrMsg
          (pyStrip b ++ conts.flatMap (fun l => ' ' :: pyStrip l))))
      | some e => .ok [e]) := by
  have hne := pyStrip_bullet_ne_nil b hb
  have hitem : assembleItems (b :: conts) =
      [pyStrip b ++ conts.flatMap (fun l => ' ' :: pyStrip l)] := by
    unfold assembleItems
    rw [assembleAux, if_pos hb, if_pos rfl]
    exact assembleAux_nonbullet conts hc (pyStrip b) hne
  refine ⟨hitem, ?_⟩
  have hstep : parse_list_items (b :: conts) = parse_list_items_aux conts (pyStrip b) [] := by
    unfold parse_list_items
    rw [parse_list_items_aux, if_pos hb, if_pos rfl]
  have hasm : assembleAux conts (pyStrip b) =
      [pyStrip b ++ conts.flatMap (fun l => ' ' :: pyStrip l)] :=
    assembleAux_nonbullet conts hc (pyStrip b) hne
  rw [hstep, parse_aux_eq conts (pyStrip b) [], hasm]
  cases hpm : pattern_match
      (pyStrip (pyStrip b ++ conts.flatMap (fun l => ' ' :: pyStrip l))) with
  | none =>
    rw [List.find?_cons_of_pos _ (by simp [hpm])]
  | some e =>
    rw [List.find?_cons_of_neg _ (by simp [hpm])]
    simp [entryOf, hpm]

theorem assemble_joins_continuations_witness :
    assembleItems [chars "* [Tool](http://x)", chars "", chars "- does stuff"] =
      [chars "* [Tool](http://x)  - does stuff"] :=
  ((assemble_joins_continuations (chars "* [Tool](http://x)")
    [chars "", chars "- does stuff"] (by decide) (by decide)).1).trans (by decide)

/-! ## C9: parsed entries always have three non-empty fields -/

/-- C9: every entry of a successful parse has a non-empty title,
url and description (each capture group of the pattern needs one
character and the item is trimmed before matching), so for every
parsed entry the renderer takes the description branch: its list
item markup carries the literal " - " separator and the escaped
description. -/
theorem parsed_entries_nonempty (sectionLines : List (List Char)) (es : List ToolEntry)
    (h : parse_list_items sectionLines = .ok es) :
    ∀ e ∈ es, e.1 ≠ [] ∧ e.2.1 ≠ [] ∧ e.2.2 ≠ [] ∧
      li_line e = chars "    <li><a href=\"" ++ html_escape true e.2.1 ++ chars "\">" ++
        html_escape true e.1 ++ chars "</a>" ++ chars " - " ++ html_escape true e.2.2 ++
        chars "</li>" := by
  intro e he
  have hp := parse_eq_assemble sectionLines
  rw [h] at hp
  cases hf : (assembleItems sectionLines).find?
      (fun b => (pattern_match (pyStrip b)).isNone) with
  | some bad => rw [hf] at hp; cases hp
  | none =>
    rw [hf] at hp
    have hes : es = (assembleItems sectionLines).map entryOf := by
      simpa using hp
    rw [hes] at he
    obtain ⟨b, hbmem, hbe⟩ := List.mem_map.mp he
    have hnotnone := List.find?_eq_none.mp hf b hbmem
    cases hpm : pattern_match (pyStrip b) with
    | none => rw [hpm] at hnotnone; simp at hnotnone
    | some e' =>
      have he' : e = e' := by rw [← hbe]; simp [entryOf, hpm]
      obtain ⟨t, u, d⟩ := e'
      obtain ⟨ht, hu, hd⟩ := pattern_match_groups (pyStrip b) t u d hpm
      subst he'
      refine ⟨ht, hu, hd, ?_⟩
      simp only [li_line]
      rw [if_neg hd]

theorem parsed_entries_nonempty_witness :
    li_line ((chars "A", chars "u", chars "d") : ToolEntry) =
      chars "    <li><a href=\"" ++ html_escape true (chars "u") ++ chars "\">" ++
        html_escape true (chars "A") ++ chars "</a>" ++ chars " - " ++
        html_escape true (chars "d") ++ chars "</li>" :=
  (parsed_entries_nonempty [chars "* [A](u) - d"]
    [(chars "A", chars "u", chars "d")] (by rfl)
    (chars "A", chars "u", chars "d") (by simp)).2.2.2

/-! ## C5: the structure of the rendered document -/

/-- The static text opening the document: the ten header lines, each
followed by a newline. -/
def headerText : List Char :=
  chars "<!doctype html>\n<html>\n<head>\n  <meta charset=\"utf-8\">\n  <title>eliben browser-tools</title>\n</head>\n<body>\n  See <a href=\"https://github.com/eliben/browser-tools\">the GitHub repository</a> for details\n  <h1>List of tools</h1>\n  <ul>\n"

/-- The static text closing the document: the three footer lines,
each followed by a newline. -/
def footerText : List Char :=
  chars "  </ul>\n</body>\n</html>\n"

theorem joinNl_append_newline (L : List (List Char)) :
    ∀ x : List Char, joinNl (x :: L) ++ ['\n'] = (x :: L).flatMap (fun l => l ++ ['\n']) := by
  induction L with
  | nil => intro x; simp [joinNl]
  | cons y t ih =>
    intro x
    have hx : joinNl (x :: y :: t) = x ++ '\n' :: joinNl (y :: t) := rfl
    rw [hx, List.flatMap_cons, ← ih y]
    simp [List.append_assoc]

theorem joinNl_flat (L : List (List Char)) (hL : L ≠ []) :
    joinNl L ++ ['\n'] = L.flatMap (fun l => l ++ ['\n']) := by
  cases L with
  | nil => exact absurd rfl hL
  | cons x t => exact joinNl_append_newline t x

set_option maxRecDepth 8192 in
/-- C5: render_html is total and produces the fixed document
structure: the static header text, then one list item line per entry
in input order (each carrying a newline), then the static footer
text; a list item is the escaped hyperlink, with the " - " plus
escaped description appended exactly when the description is
non-empty; the output ends with exactly one newline (the character
before the final newline is the closing angle bracket of the final
closing tag, not a newline);
and the empty entry sequence produces just header and footer, whose
adjacent lines are the opening and closing ul tags with no list
item between them. -/
theorem render_html_structure (tools : List ToolEntry) :
    render_html tools =
      headerText ++ tools.flatMap (fun e => li_line e ++ ['\n']) ++ footerText ∧
    (∀ e : ToolEntry, e.2.2 = [] →
      li_line e = chars "    <li><a href=\"" ++ html_escape true e.2.1 ++ chars "\">" ++
        html_escape true e.1 ++ chars "</a>" ++ chars "</li>") ∧
    (∀ e : ToolEntry, e.2.2 ≠ [] →
      li_line e = chars "    <li><a href=\"" ++ html_escape true e.2.1 ++ chars "\">" ++
        html_escape true e.1 ++ chars "</a>" ++ chars " - " ++ html_escape true e.2.2 ++
        chars "</li>") ∧
    (∃ bdy, render_html tools = bdy ++ ['\n'] ∧ bdy.getLast? = some '>') ∧
    render_html [] = headerText ++ footerText := by
  have hmain : render_html tools =
      headerText ++ tools.flatMap (fun e => li_line e ++ ['\n']) ++ footerText := by
    rw [render_html, joinNl_flat _ (by simp [hdrLines]), List.flatMap_append,
      List.flatMap_append, List.flatMap_map]
    rfl
  refine ⟨hmain, ?_, ?_, ?_, by rfl⟩
  · intro e hd
    simp only [li_line]
    rw [if_pos hd]
  · intro e hd
    simp only [li_line]
    rw [if_neg hd]
  · refine ⟨headerText ++ tools.flatMap (fun e => li_line e ++ ['\n']) ++
      chars "  </ul>\n</body>\n</html>", ?_, ?_⟩
    · rw [hmain]
      simp [footerText, chars, List.append_assoc]
    · rw [List.getLast?_append, List.getLast?_append]
      have h1 : (chars "  </ul>\n</body>\n</html>").getLast? = some '>' := by decide
      rw [h1]
      rfl

theorem render_html_structure_witness :
    li_line ((chars "A", chars "u", chars "") : ToolEntry) =
      chars "    <li><a href=\"" ++ html_escape true (chars "u") ++ chars "\">" ++
        html_escape true (chars "A") ++ chars "</a>" ++ chars "</li>" :=
  (render_html_structure []).2.1 (chars "A", chars "u", chars "") (by rfl)

/-! ## C6: escaping of user content -/

theorem noUnescaped_escape (s : List Char) :
    noUnescaped (html_escape true s) = true := by
  induction s with
  | nil => rfl
  | cons c cs ih =>
    have hstep : html_escape true (c :: cs) = escapeChar true c ++ html_escape true cs := by
      simp [html_escape]
    rw [hstep]
    by_cases h1 : c = '&'
    · subst h1
      have e1 : escapeChar true '&' ++ html_escape true cs =
          '&' :: 'a' :: 'm' :: 'p' :: ';' :: html_escape true cs := rfl
      rw [e1]
      simp [noUnescaped, List.isPrefixOf, chars]
      exact ih
    · by_cases h2 : c = '<'
      · subst h2
        have e1 : escapeChar true '<' ++ html_escape true cs =
            '&' :: 'l' :: 't' :: ';' :: html_escape true cs := rfl
        rw [e1]
        simp [noUnescaped, List.isPrefixOf, chars]
        exact ih
      · by_cases h3 : c = '>'
        · subst h3
          have e1 : escapeChar true '>' ++ html_escape true cs =
              '&' :: 'g' :: 't' :: ';' :: html_escape true cs := rfl
          rw [e1]
          simp [noUnescaped, List.isPrefixOf, chars]
          exact ih
        · by_cases h4 : c = '"'
          · subst h4
            have e1 : escapeChar true '"' ++ html_escape true cs =
                '&' :: 'q' :: 'u' :: 'o' :: 't' :: ';' :: html_escape true cs := rfl
            rw [e1]
            simp [noUnescaped, List.isPrefixOf, chars]
            exact ih
          · by_cases h5 : c = apos
            · subst h5
              have e1 : escapeChar true apos ++ html_escape true cs =
                  '&' :: '#' :: 'x' :: '2' :: '7' :: ';' :: html_escape true cs := rfl
              rw [e1]
              simp [noUnescaped, List.isPrefixOf, chars]
              exact ih
            · have hc : escapeChar true c = [c] := by
                simp [escapeChar, h1, h2, h3, h4, h5]
              rw [hc]
              show noUnescaped (c :: html_escape true cs) = true
              rw [noUnescaped, if_neg (by simp [h2, h3, h4]), if_neg h1]
              exact ih

theorem apos_not_mem_escape (s : List Char) : apos ∉ html_escape true s := by
  induction s with
  | nil => simp [html_escape]
  | cons c cs ih =>
    have hstep : html_escape true (c :: cs) = escapeChar true c ++ html_escape true cs := by
      simp [html_escape]
    rw [hstep]
    intro hm
    rcases List.mem_append.mp hm with hin | hin
    · by_cases h1 : c = '&'
      · subst h1; revert hin; decide
      · by_cases h2 : c = '<'
        · subst h2; revert hin; decide
        · by_cases h3 : c = '>'
          · subst h3; revert hin; decide
          · by_cases h4 : c = '"'
            · subst h4; revert hin; decide
            · by_cases h5 : c = apos
              · subst h5; revert hin; decide
              · have hc : escapeChar true c = [c] := by
                  simp [escapeChar, h1, h2, h3, h4, h5]
                rw [hc] at hin
                simp at hin
                exact h5 (hin ▸ rfl)
    · exact ih hin

theorem escape_id_on_plain (s : List Char)
    (h : ∀ c ∈ s, c ≠ '&' ∧ c ≠ '<' ∧ c ≠ '>' ∧ c ≠ '"' ∧ c ≠ apos) :
    html_escape true s = s := by
  induction s with
  | nil => rfl
  | cons c cs ih =>
    obtain ⟨h1, h2, h3, h4, h5⟩ := h c (List.mem_cons_self c cs)
    have hrest : ∀ x ∈ cs, x ≠ '&' ∧ x ≠ '<' ∧ x ≠ '>' ∧ x ≠ '"' ∧ x ≠ apos :=
      fun x hx => h x (List.mem_cons_of_mem c hx)
    have hstep : html_escape true (c :: cs) = escapeChar true c ++ html_escape true cs := by
      simp [html_escape]
    have hc : escapeChar true c = [c] := by
      simp [escapeChar, h1, h2, h3, h4, h5]
    rw [hstep, hc, ih hrest]
    rfl

/-- C6: the renderer applies html.escape, and nothing else, to the
three user-content fields: the list item markup is the fixed
template around the escaped url, title and description; escaping
leaves no raw angle bracket or double quote in the escaped text,
leaves every ampersand immediately followed by one of the five
entity tails, emits no apostrophe at all (in particular none inside
the href attribute), is the identity on text using none of the five
significant characters, and turns the title R&D Tool into
R&amp;D Tool. -/
theorem render_escapes_user_content (e : ToolEntry) :
    li_line e = chars "    <li><a href=\"" ++ html_escape true e.2.1 ++ chars "\">" ++
      html_escape true e.1 ++ chars "</a>" ++
      ((if e.2.2 = [] then [] else chars " - " ++ html_escape true e.2.2) ++ chars "</li>") ∧
    (∀ s : List Char, noUnescaped (html_escape true s) = true) ∧
    (∀ s : List Char, apos ∉ html_escape true s) ∧
    (∀ s : List Char, (∀ c ∈ s, c ≠ '&' ∧ c ≠ '<' ∧ c ≠ '>' ∧ c ≠ '"' ∧ c ≠ apos) →
      html_escape true s = s) ∧
    html_escape true (chars "R&D Tool") = chars "R&amp;D Tool" := by
  refine ⟨?_, noUnescaped_escape, apos_not_mem_escape, escape_id_on_plain, rfl⟩
  by_cases hd : e.2.2 = []
  · simp [li_line, hd, List.append_assoc]
  · simp [li_line, hd, List.append_assoc]

theorem render_escapes_user_content_witness :
    html_escape true (chars "plain text") = chars "plain text" :=
  (render_escapes_user_content (chars "x", chars "y", chars "z")).2.2.2.1
    (chars "plain text") (by decide)

/-! ## C8: failures propagate and nothing is written -/

/-- C8: when extraction or parsing raises, the driver returns that
very error (the process aborts with a non-zero outcome) and the
output file state is exactly the input state — no partial write ever
happens; the output file is written, with the complete rendered
text, only when the whole pipeline succeeds. -/
theorem main_run_no_partial_write (readme : List Char) (fs : FileSystem) :
    (∀ e, extract_section (splitlines readme) = .error e →
      main_run readme fs = (fs, .error e)) ∧
    (∀ sec e, extract_section (splitlines readme) = .ok sec →
      parse_list_items sec = .error e →
      main_run readme fs = (fs, .error e)) ∧
    (∀ r, main_run readme fs = (r, .ok ()) →
      ∃ sec tools, extract_section (splitlines readme) = .ok sec ∧
        parse_list_items sec = .ok tools ∧
        r.index_html = some (render_html tools)) := by
  refine ⟨?_, ?_, ?_⟩
  · intro e he
    simp [main_run, he]
  · intro sec e hs hp
    simp [main_run, hs, hp]
  · intro r hr
    cases hx : extract_section (splitlines readme) with
    | error e =>
      rw [main_run] at hr
      simp only [hx] at hr
      exact absurd (congrArg Prod.snd hr) (by simp)
    | ok sec =>
      rw [main_run] at hr
      simp only [hx] at hr
      cases hp : parse_list_items sec with
      | error e =>
        simp only [hp] at hr
        exact absurd (congrArg Prod.snd hr) (by simp)
      | ok tools =>
        simp only [hp] at hr
        refine ⟨sec, tools, rfl, hp, ?_⟩
        have : ({ index_html := some (render_html tools) } : FileSystem) = r := by
          exact congrArg Prod.fst hr
        rw [← this]

theorem main_run_no_partial_write_witness :
    main_run (chars "# title only") ⟨some (chars "old content")⟩ =
      (⟨some (chars "old content")⟩, .error (.runtimeError headingMsg)) :=
  (main_run_no_partial_write (chars "# title only") ⟨some (chars "old content")⟩).1
    (.runtimeError headingMsg) (by rfl)
